import Mathlib

/-!
Verification of the template expression sub-language of this repository:
the recursive-descent parser (`Expression::parse` / `Expression::term` in
src/rum/src/view/template/language/expression.rs) and the tree-walking
evaluator (`Expression::evaluate`, `Op::evaluate_binary` in
src/rum/src/view/template/language/op.rs), shallowly embedded in Lean.

The lexer module (types `Token`, `Value`, `TokenWithContext`, trait
`Tokenize`), the `Term` type, the `Context` type and the template `Error`
type are part of the repository but are not among the provided source
files; they are modelled from the specification and marked as such in
their doc comments.  A `TokenWithContext` is a `Token` plus source-position
metadata used only for diagnostics; the embedding drops the position and
works with plain `Token`s.
-/

namespace Rwf

/-- Modelled from the spec: `Value`, the dynamically typed runtime value of
the template language (spec section 3) — tagged union of Integer(i64),
Float(f64), Boolean(bool), String(text) and List-of-Value.  Integer
payloads are modelled as `Int` and float payloads as `Rat` (no claim
exercises i64 overflow or IEEE-754 special values). -/
inductive Value where
  | integer (n : Int)
  | float (f : Rat)
  | boolean (b : Bool)
  | str (s : String)
  | list (l : List Value)

/-- Modelled from the spec: truthiness coercion of a `Value` (spec section 3:
zero/empty collapses to false, otherwise true; Boolean is identity). -/
def Value.truthy : Value → Bool
  | .integer n => n != 0
  | .float f => f != 0
  | .boolean b => b
  | .str s => s != ""
  | .list l => !l.isEmpty

mutual

/-- Modelled from the spec: structural equality of `Value`s (Rust `==`, the
derived `PartialEq` of the lexer's `Value`); per spec sections 4.2 and 9,
values of different variants are never equal and comparison never errors. -/
def Value.eqv : Value → Value → Bool
  | .integer a, .integer b => a == b
  | .float a, .float b => a == b
  | .boolean a, .boolean b => a == b
  | .str a, .str b => a == b
  | .list a, .list b => Value.eqvList a b
  | _, _ => false

/-- Elementwise structural equality of `Value` lists. -/
def Value.eqvList : List Value → List Value → Bool
  | [], [] => true
  | a :: as', b :: bs' => Value.eqv a b && Value.eqvList as' bs'
  | _, _ => false

end

/-- Modelled from the spec: the strict-order test of Rust `left < right` on
`Value`s used by the ordering comparisons in `Op::evaluate_binary`
(spec section 4.2: ordering is defined for numerically/lexically ordered
variants); for pairs with no defined order the Rust `<` on a partial order
yields `false`. -/
def Value.ltv : Value → Value → Bool
  | .integer a, .integer b => a < b
  | .float a, .float b => a < b
  | .str a, .str b => a < b
  | _, _ => false

/-- Modelled from the spec: the test of Rust `left <= right` on `Value`s. -/
def Value.lev : Value → Value → Bool
  | .integer a, .integer b => a ≤ b
  | .float a, .float b => a ≤ b
  | .str a, .str b => a ≤ b
  | _, _ => false

/-- The operator enum `Op` of src/rum/src/view/template/language/op.rs. -/
inductive Op where
  | Not
  | And
  | Or
  | Add
  | Sub
  | Mult
  | Div
  | Mod
  | Equals
  | NotEquals
  | GreaterThan
  | GreaterEqualThan
  | LessThan
  | LessEqualThan
deriving DecidableEq, Fintype

/-- Modelled from the spec: the lexer's `Token` type (spec section 3) — a
tagged variant over literal values, variable names, the operator lexemes
(`!`, `&&`, `||`, the six comparisons, `+`, `-`, `*`, `/`, `%`),
punctuation and the expression-block delimiters.  The constructor names
follow the variants that the provided sources pattern-match
(`Token::Not`, `Token::Plus`, `Token::Minus`, `Token::Value`,
`Token::Variable`, `Token::SquareBracketStart`, `Token::SquareBracketEnd`,
`Token::Comma`, `Token::RoundBracketStart`, `Token::RoundBracketEnd`,
`Token::BlockEnd`, ...). -/
inductive Token where
  | Value (v : Value)
  | Variable (name : String)
  | Not
  | And
  | Or
  | Equals
  | NotEquals
  | GreaterThan
  | GreaterEqualThan
  | LessThan
  | LessEqualThan
  | Plus
  | Minus
  | Mult
  | Div
  | Mod
  | Comma
  | RoundBracketStart
  | RoundBracketEnd
  | SquareBracketStart
  | SquareBracketEnd
  | BlockStart
  | BlockEnd

/-- The template-language error type (`super::super::Error` of the view
module, not among the provided sources; error kinds modelled from spec
section 7).  `Eof` is the spec's UnexpectedEndOfInput and `SyntaxError`
models the source's `Error::ExpressionSyntax(TokenWithContext)` with the
position metadata dropped.  The source's `todo!()` on arithmetic in
`Op::evaluate_binary` (a panic) is modelled as the spec's
`UnsupportedOperation` error. -/
inductive Error where
  | Eof
  | SyntaxError (t : Token)
  | UndefinedVariable (name : String)
  | TypeError
  | UnsupportedOperation

/-- Modelled from the spec: `Term`, the grammar leaf — a literal constant
or a variable reference (spec section 3). -/
inductive Term where
  | Constant (v : Value)
  | Variable (name : String)

/-- Modelled from the spec: `Context`, the read-only mapping from variable
name to `Value` supplied at evaluation time (spec section 3). -/
def Context := String → Option Value

/-- Modelled from the spec: the default context binding no variables. -/
def Context.default : Context := fun _ => none

/-- Modelled from the spec: `Context::get` — variable lookup. -/
def Context.get (c : Context) (name : String) : Option Value := c name

/-- Modelled from the spec: `Term::evaluate` (spec section 4.1) — constant
evaluation is total; variable evaluation looks the name up in the context
and fails with `UndefinedVariable` when absent. -/
def Term.evaluate (t : Term) (context : Context) : Except Error Value :=
  match t with
  | .Constant v => .ok v
  | .Variable name =>
    match context.get name with
    | some v => .ok v
    | none => .error (.UndefinedVariable name)

/-- `Op::from_token` of op.rs, i.e. the `From<Token> for Option<Op>`
implementation: the tokens recognized as operators by the parser. -/
def Op.from_token : Token → Option Op
  | .Not => some .Not
  | .And => some .And
  | .Or => some .Or
  | .Equals => some .Equals
  | .NotEquals => some .NotEquals
  | .GreaterThan => some .GreaterThan
  | .GreaterEqualThan => some .GreaterEqualThan
  | .LessThan => some .LessThan
  | .LessEqualThan => some .LessEqualThan
  | _ => none

/-- `Op::binary` of op.rs: every operator except `Not` is binary. -/
def Op.binary : Op → Bool
  | .Not => false
  | _ => true

/-- Modelled from the spec: the precedence rank of an `Op`, from loosest
(0) to tightest binding (spec section 4.2:
Or < And < comparisons < Add/Sub < Mult/Div/Mod, with the unary-only `Not`
binding tighter than any binary operator).  op.rs as provided derives no
order for `Op`, so the comparison `second_op < op` that expression.rs
applies is not defined by the provided sources; spec section 4.3 fixes its
meaning: the first branch fires exactly when the second operator binds
tighter than the first. -/
def Op.prec : Op → Nat
  | .Or => 0
  | .And => 1
  | .Equals => 2
  | .NotEquals => 2
  | .LessThan => 2
  | .LessEqualThan => 2
  | .GreaterThan => 2
  | .GreaterEqualThan => 2
  | .Add => 3
  | .Sub => 3
  | .Mult => 4
  | .Div => 4
  | .Mod => 4
  | .Not => 5

/-- Modelled from the spec: the precedence comparison of two `Op`s
performed by `Expression::parse` (see `Op.prec`): `a.tighterThan b` holds
when `a` binds tighter than `b`. -/
def Op.tighterThan (a b : Op) : Bool := Op.prec b < Op.prec a

/-- `Op::evaluate_binary` of op.rs.  Equality, ordering and the logical
combinators are as in the source; the source's `_ => todo!()` for the
arithmetic operators (a panic) is modelled as the
`UnsupportedOperation` error (spec section 7). -/
def Op.evaluate_binary (op : Op) (left right : Value) : Except Error Value :=
  match op with
  | .Equals => .ok (.boolean (Value.eqv left right))
  | .NotEquals => .ok (.boolean (!Value.eqv left right))
  | .LessThan => .ok (.boolean (Value.ltv left right))
  | .LessEqualThan => .ok (.boolean (Value.lev left right))
  | .GreaterThan => .ok (.boolean (Value.ltv right left))
  | .GreaterEqualThan => .ok (.boolean (Value.lev right left))
  | .And => .ok (.boolean (left.truthy && right.truthy))
  | .Or => .ok (.boolean (left.truthy || right.truthy))
  | _ => .error .UnsupportedOperation

/-- Modelled from the spec: `Op::evaluate_unary` (called by
`Expression::evaluate` but not among the provided sources; spec section
4.2): `Not` applies truthiness and negates; unary `Sub` negates a numeric
operand; unary `Add` is the identity on numeric operands; anything else is
a type error. -/
def Op.evaluate_unary (op : Op) (operand : Value) : Except Error Value :=
  match op, operand with
  | .Not, v => .ok (.boolean (!v.truthy))
  | .Sub, .integer n => .ok (.integer (-n))
  | .Sub, .float f => .ok (.float (-f))
  | .Add, .integer n => .ok (.integer n)
  | .Add, .float f => .ok (.float f)
  | _, _ => .error .TypeError

/-- The `Expression` AST of expression.rs: binary nodes, unary nodes,
term leaves and list literals. -/
inductive Expression where
  | Binary (left : Expression) (op : Op) (right : Expression)
  | Unary (op : Op) (operand : Expression)
  | Term (term : Term)
  | List (terms : List Expression)

/-- The token sequence consumed by the parser: the model of the
`Peekable<impl Iterator<Item = TokenWithContext>>` the source threads
through `Expression::parse`/`Expression::term`, with position metadata
dropped.  (Named at top level: inside the `Expression` namespace the bare
name `List` would denote the `Expression.List` constructor.) -/
abbrev TokenStream := List Token

/-- `Expression::constant` of expression.rs. -/
def Expression.constant (value : Value) : Expression := .Term (.Constant value)

/-- `Expression::variable` of expression.rs (`variable` is a Lean keyword,
hence the trailing E). -/
def Expression.variableE (name : String) : Expression := .Term (.Variable name)

mutual

/-- `Expression::evaluate` of expression.rs: tree-walk reducing an AST to
a `Value` against a context; each node evaluates its children first and
errors propagate outward unchanged. -/
def Expression.evaluate (e : Expression) (context : Context) : Except Error Value :=
  match e with
  | .Term term => term.evaluate context
  | .Binary left op right => do
    let lv ← left.evaluate context
    let rv ← right.evaluate context
    op.evaluate_binary lv rv
  | .Unary op operand => do
    let ov ← operand.evaluate context
    op.evaluate_unary ov
  | .List terms => do
    let vs ← evaluateTerms terms context
    .ok (.list vs)

/-- The element loop of `Expression::evaluate` on a `List` node: evaluate
each element in order, failing fast. -/
def evaluateTerms (terms : List Expression) (context : Context) :
    Except Error (List Value) :=
  match terms with
  | [] => .ok []
  | t :: rest => do
    let v ← t.evaluate context
    let vs ← evaluateTerms rest context
    .ok (v :: vs)

end

/-- The list-literal loop of `Expression::term` (expression.rs, the
`Token::SquareBracketStart` arm): consume tokens until the closing `]`,
skipping commas, turning literals and variables into elements and
rejecting any other token; running out of tokens is an `Eof` error.
The source pushes elements onto a vector; the model conses and returns the
same elements in source order together with the remaining stream. -/
def parseListItems (ts : List Token) : Except Error (List Expression × List Token) :=
  match ts with
  | [] => .error .Eof
  | t :: rest =>
    match t with
    | .SquareBracketEnd => .ok ([], rest)
    | .Comma => parseListItems rest
    | .Value value => do
      let (terms, r) ← parseListItems rest
      .ok (Expression.constant value :: terms, r)
    | .Variable name => do
      let (terms, r) ← parseListItems rest
      .ok (Expression.variableE name :: terms, r)
    | other => .error (.SyntaxError other)

/-- The bracket-counting loop of `Expression::term` (expression.rs, the
`Token::RoundBracketStart` arm): with `count` still-open parentheses,
collect tokens verbatim (inner parentheses included) until the matching
closing bracket, which is dropped; a `BlockEnd` before the match is a
syntax error and end of stream is `Eof`.  Returns the collected tokens and
the stream after the matching bracket. -/
def collectParen (count : Nat) (ts : List Token) : Except Error (List Token × List Token) :=
  match ts with
  | [] => .error .Eof
  | t :: rest =>
    match t with
    | .RoundBracketStart => do
      let (inner, r) ← collectParen (count + 1) rest
      .ok (Token.RoundBracketStart :: inner, r)
    | .RoundBracketEnd =>
      if count = 1 then .ok ([], rest)
      else do
        let (inner, r) ← collectParen (count - 1) rest
        .ok (Token.RoundBracketEnd :: inner, r)
    | .BlockEnd => .error (.SyntaxError .BlockEnd)
    | other => do
      let (inner, r) ← collectParen count rest
      .ok (other :: inner, r)

mutual

/-- `Expression::term` of expression.rs, embedded with an explicit fuel
argument bounding the recursion depth (the Rust function recurses without
fuel; every recursive call here strictly decreases the fuel, and the
`Expression.term` wrapper supplies fuel ample for its input, so the
fuel-exhaustion result `Error.Eof` at fuel 0 is never reached from the
wrapper).  Parses one primary: a unary prefix (`!`, `-`, `+`) applied to a
nested term, a literal, a variable, a `[...]` list or a parenthesized
group, whose collected tokens are re-parsed as a standalone expression
(dropping whatever that inner parse leaves unconsumed); any other leading
token is a syntax error and an empty stream is `Eof`. -/
def Expression.termF (fuel : Nat) (ts : TokenStream) :
    Except Error (Expression × TokenStream) :=
  match fuel with
  | 0 => .error .Eof
  | fuel + 1 =>
    match ts with
    | [] => .error .Eof
    | t :: rest =>
      match t with
      | .Not => do
        let (operand, r) ← Expression.termF fuel rest
        .ok (.Unary .Not operand, r)
      | .Minus => do
        let (operand, r) ← Expression.termF fuel rest
        .ok (.Unary .Sub operand, r)
      | .Plus => do
        let (operand, r) ← Expression.termF fuel rest
        .ok (.Unary .Add operand, r)
      | .Variable name => .ok (Expression.variableE name, rest)
      | .Value value => .ok (Expression.constant value, rest)
      | .SquareBracketStart => do
        let (terms, r) ← parseListItems rest
        .ok (.List terms, r)
      | .RoundBracketStart => do
        let (inner, r) ← collectParen 1 rest
        let (e, _) ← Expression.parseF fuel inner
        .ok (e, r)
      | other => .error (.SyntaxError other)

/-- `Expression::parse` of expression.rs, embedded with an explicit fuel
argument (see `Expression.termF`): parse a primary `left`; peeking at an
empty stream is `Eof`; a non-operator next token ends the expression with
`left` alone (token not consumed); otherwise consume the operator, parse a
primary `right`, and peek again: end of stream or `BlockEnd` (left
unconsumed) yields `Binary(left, op, right)`; a second operator is
consumed and the remainder is parsed recursively into `right2`, grouping
by the precedence comparison of the two operators; any other token is a
syntax error. -/
def Expression.parseF (fuel : Nat) (ts : TokenStream) :
    Except Error (Expression × TokenStream) :=
  match fuel with
  | 0 => .error .Eof
  | fuel + 1 => do
    let (left, ts1) ← Expression.termF fuel ts
    match ts1 with
    | [] => .error .Eof
    | t :: ts2 =>
      match Op.from_token t with
      | none => .ok (left, t :: ts2)
      | some op => do
        let (right, ts3) ← Expression.termF fuel ts2
        match ts3 with
        | [] => .ok (.Binary left op right, [])
        | .BlockEnd :: ts4 => .ok (.Binary left op right, .BlockEnd :: ts4)
        | t2 :: ts4 =>
          match Op.from_token t2 with
          | none => .error (.SyntaxError t2)
          | some second_op => do
            let (right2, ts5) ← Expression.parseF fuel ts4
            if second_op.tighterThan op then
              .ok (.Binary left op (.Binary right second_op right2), ts5)
            else
              .ok (.Binary (.Binary left op right) second_op right2, ts5)

end

/-- Fuel sufficient for any run of the parser on `ts`: along every chain of
recursive calls each step burns one unit of fuel and every second step
consumes at least one token of the stream. -/
def ampleFuel (ts : List Token) : Nat := 2 * ts.length + 2

/-- `Expression::term` on a token stream (fuel instantiated amply). -/
def Expression.term (ts : TokenStream) : Except Error (Expression × TokenStream) :=
  Expression.termF (ampleFuel ts) ts

/-- `Expression::parse` on a token stream (fuel instantiated amply). -/
def Expression.parse (ts : TokenStream) : Except Error (Expression × TokenStream) :=
  Expression.parseF (ampleFuel ts) ts

/-- The composition tokens-to-value used by the `Evaluate` impls of
expression.rs: parse the stream (the block-start marker already skipped)
and evaluate the resulting expression against the context. -/
def evaluateStream (ts : TokenStream) (context : Context) : Except Error Value := do
  let (expr, _) ← Expression.parse ts
  expr.evaluate context

/-- The precedence level of an operator exactly as the specification's
loosest-to-tightest chain lists it:
Or, then And, then the six comparisons, then Add and Sub, then Mult, Div
and Mod, with the unary-only Not tightest of all.  Stated as the
claim-side yardstick the parser's comparison is measured against. -/
def chainLevel : Op → Nat
  | .Or => 0
  | .And => 1
  | .Equals | .NotEquals | .LessThan | .LessEqualThan | .GreaterThan | .GreaterEqualThan => 2
  | .Add | .Sub => 3
  | .Mult | .Div | .Mod => 4
  | .Not => 5

/-- Tokens the list loop of `Expression::term` accepts between `[` and
`]` without erroring and without closing the list: literals, variable
names and commas. -/
def isListElemTok : Token → Bool
  | .Value _ => true
  | .Variable _ => true
  | .Comma => true
  | _ => false

/-- The elements a bracketed token arrangement denotes: its literals and
variables in source order, commas skipped. -/
def listElems (ts : List Token) : List Expression :=
  ts.filterMap fun t =>
    match t with
    | .Value v => some (Expression.constant v)
    | .Variable name => some (Expression.variableE name)
    | _ => none

/-- Whether a stream, read with `count` parentheses already open, contains
the closing bracket matching the first one before any `BlockEnd` and
before the stream ends — the well-formedness condition of the
specification for a parenthesized group. -/
def hasMatchingClose (count : Nat) : List Token → Bool
  | [] => false
  | t :: rest =>
    match t with
    | .RoundBracketStart => hasMatchingClose (count + 1) rest
    | .RoundBracketEnd => if count = 1 then true else hasMatchingClose (count - 1) rest
    | .BlockEnd => false
    | _ => hasMatchingClose count rest

/-- Modelled from the spec: the token stream the tokenizer produces for
the source `<% 2 * 2 + 3 * 5 %>` of the repository's own
`test_op_precendence`, after the block-start marker is skipped (spec
section 6: literal and operator tokens in source order, terminated by the
block-end marker). -/
def tokensTwoTwoThreeFive : TokenStream :=
  [.Value (.integer 2), .Mult, .Value (.integer 2), .Plus,
   .Value (.integer 3), .Mult, .Value (.integer 5), .BlockEnd]

/-!  Theorems settling the claims.  -/

/-- Reduction of the error monad's bind on a success, for the do-blocks of
the embedding. -/
@[simp] theorem bindOk {α β : Type} (a : α) (f : α → Except Error β) :
    (Except.ok a : Except Error α) >>= f = f a := rfl

/-- Reduction of the error monad's bind on a failure. -/
@[simp] theorem bindErr {α β : Type} (e : Error) (f : α → Except Error β) :
    (Except.error e : Except Error α) >>= f = Except.error e := rfl

/-- C2 counterexample: the precedence comparison applied by
`Expression::parse` is not a strict total order on the operators — `Add`
and `Sub` are distinct operators that occupy the same cell of the claim's
chain, and the comparison orders them in neither direction. -/
theorem add_sub_incomparable :
    Op.tighterThan .Add .Sub = false ∧ Op.tighterThan .Sub .Add = false ∧
      (Op.Add = Op.Sub → False) ∧ chainLevel .Add = chainLevel .Sub := by
  decide

/-- C2 (amended): the precedence comparison applied by `Expression::parse`
is a strict weak order agreeing with the chain
Or < And < comparisons < Add/Sub < Mult/Div/Mod (Not tightest): it holds
exactly when the chain assigns the first operator a strictly tighter
level, it is irreflexive and transitive, and any two operators at distinct
chain levels are comparable; operators sharing a level (such as Add and
Sub) are incomparable rather than strictly ordered. -/
theorem tighterThan_agrees_with_chain :
    (∀ a b : Op, Op.tighterThan a b = true ↔ chainLevel b < chainLevel a) ∧
      (∀ a : Op, Op.tighterThan a a = false) ∧
      (∀ a b c : Op, Op.tighterThan a b = true → Op.tighterThan b c = true →
        Op.tighterThan a c = true) ∧
      (∀ a b : Op, chainLevel a ≠ chainLevel b →
        Op.tighterThan a b = true ∨ Op.tighterThan b a = true) := by
  decide

/-- C2 witness: the amended order properties at concrete operators —
transitivity applied to Mult tighter than Add tighter than Or. -/
theorem tighterThan_agrees_with_chain_witness :
    Op.tighterThan .Mult .Or = true :=
  tighterThan_agrees_with_chain.2.2.1 .Mult .Add .Or (by decide) (by decide)

/-- C3: on the token stream of `2 * 2 + 3 * 5`, parsing and evaluating
with the default context yields `Integer(2)`, not the `Integer(19)` the
specification and the repository's own `test_op_precendence` demand:
`Op::from_token` does not recognize the arithmetic tokens as operators, so
`Expression::parse` stops after the first literal. -/
theorem two_two_three_five_evaluates_to_two :
    evaluateStream tokensTwoTwoThreeFive Context.default = .ok (.integer 2) ∧
      evaluateStream tokensTwoTwoThreeFive Context.default ≠ .ok (.integer 19) := by
  refine ⟨rfl, ?_⟩
  intro h
  rw [show evaluateStream tokensTwoTwoThreeFive Context.default = .ok (.integer 2) from rfl] at h
  injection h with h1
  injection h1 with h2
  exact absurd h2 (by decide)

/-- C4: `Op::from_token` maps the `not`, `and`, `or` and the six
comparison tokens to their operators, but returns `None` for every
arithmetic operator token (`+`, `-`, `*`, `/`, `%`) — the gap that breaks
the repository's own precedence test. -/
theorem from_token_arithmetic_gap :
    Op.from_token .Plus = none ∧ Op.from_token .Minus = none ∧
      Op.from_token .Mult = none ∧ Op.from_token .Div = none ∧
      Op.from_token .Mod = none ∧
      Op.from_token .Not = some .Not ∧ Op.from_token .And = some .And ∧
      Op.from_token .Or = some .Or ∧ Op.from_token .Equals = some .Equals ∧
      Op.from_token .NotEquals = some .NotEquals ∧
      Op.from_token .GreaterThan = some .GreaterThan ∧
      Op.from_token .GreaterEqualThan = some .GreaterEqualThan ∧
      Op.from_token .LessThan = some .LessThan ∧
      Op.from_token .LessEqualThan = some .LessEqualThan :=
  ⟨rfl, rfl, rfl, rfl, rfl, rfl, rfl, rfl, rfl, rfl, rfl, rfl, rfl, rfl⟩

/-- C5 counterexample: parsing the expression block `1 %>` succeeds, and
the block-end marker is still the next token of the stream afterwards —
`Expression::parse` peeks at it but does not consume it. -/
theorem parse_leaves_blockEnd :
    Expression.parse [Token.Value (Value.integer 1), Token.BlockEnd] =
      .ok (Expression.constant (Value.integer 1), [Token.BlockEnd]) := rfl

/-- C6 counterexample: a token stream consisting of one literal and
nothing else makes `Expression::parse` fail with `Eof` — after the term
the parser insists on peeking a next token — where the claim says the lone
term is returned as a complete expression. -/
theorem parse_lone_term_at_end_of_stream_errors :
    Expression.parse [Token.Value (Value.integer 1)] = .error .Eof := rfl

/-- C6 (amended): after parsing a single primary term, when the next
token is not an operator `Expression::parse` succeeds with that term alone
(the token left unconsumed); when the term is instead followed by end of
stream, `Expression::parse` fails with `Eof` — the parser unconditionally
peeks for a next token after the term. -/
theorem parse_lone_term (fuel : Nat) (ts rest : TokenStream) (e : Expression) (t : Token) :
    (Expression.termF fuel ts = .ok (e, t :: rest) → Op.from_token t = none →
      Expression.parseF (fuel + 1) ts = .ok (e, t :: rest)) ∧
    (Expression.termF fuel ts = .ok (e, []) →
      Expression.parseF (fuel + 1) ts = .error .Eof) := by
  constructor
  · intro h1 h2
    simp [Expression.parseF, h1, h2]
  · intro h1
    simp [Expression.parseF, h1]

/-- C6 witness: the lone literal of the block `1 %>` is returned alone
with the block-end marker unconsumed, and the same literal with nothing
after it makes parse fail with `Eof`. -/
theorem parse_lone_term_witness :
    Expression.parseF 2 [Token.Value (Value.integer 1), Token.BlockEnd] =
        .ok (Expression.constant (Value.integer 1), [Token.BlockEnd]) ∧
      Expression.parseF 2 [Token.Value (Value.integer 1)] = .error .Eof :=
  ⟨(parse_lone_term 1 [Token.Value (Value.integer 1), Token.BlockEnd] []
      (Expression.constant (Value.integer 1)) Token.BlockEnd).1 rfl rfl,
    (parse_lone_term 1 [Token.Value (Value.integer 1)] []
      (Expression.constant (Value.integer 1)) Token.BlockEnd).2 rfl⟩

/-- Running out of tokens without having found the matching closing
bracket, or meeting the block-end marker first, makes the bracket
collector of `Expression::term` fail with `Eof` or with a syntax error on
the block-end marker. -/
theorem collectParen_no_close (ts : List Token) :
    ∀ n : Nat, hasMatchingClose n ts = false →
      collectParen n ts = .error .Eof ∨
        collectParen n ts = .error (.SyntaxError .BlockEnd) := by
  induction ts with
  | nil => exact fun n _ => Or.inl rfl
  | cons t rest ih =>
    intro n h
    cases t
    case RoundBracketStart =>
      simp only [hasMatchingClose] at h
      rcases ih (n + 1) h with h' | h' <;> simp [collectParen, h']
    case RoundBracketEnd =>
      simp only [hasMatchingClose] at h
      rcases eq_or_ne n 1 with hn | hn
      · simp [hn] at h
      · simp only [if_neg hn] at h
        rcases ih (n - 1) h with h' | h' <;> simp [collectParen, hn, h']
    case BlockEnd => exact Or.inr rfl
    all_goals
      simp only [hasMatchingClose] at h
      rcases ih n h with h' | h' <;> simp [collectParen, h']

/-- The list loop of `Expression::term` fails with `Eof` when the stream
holds only element and comma tokens and ends before any `]`. -/
theorem parseListItems_eof (ts : List Token) (h : ∀ t ∈ ts, isListElemTok t = true) :
    parseListItems ts = .error .Eof := by
  induction ts with
  | nil => rfl
  | cons t rest ih =>
    have ht : isListElemTok t = true := h t (List.mem_cons_self t rest)
    have ih' := ih fun t' ht' => h t' (List.mem_cons_of_mem t ht')
    cases t <;> simp_all [isListElemTok, parseListItems]

/-- The list loop of `Expression::term` on element and comma tokens up to
a closing `]` succeeds with exactly the literal and variable elements in
source order. -/
theorem parseListItems_ok (inner rest : List Token)
    (h : ∀ t ∈ inner, isListElemTok t = true) :
    parseListItems (inner ++ Token.SquareBracketEnd :: rest) =
      .ok (listElems inner, rest) := by
  induction inner with
  | nil => rfl
  | cons t inner ih =>
    have ht : isListElemTok t = true := h t (List.mem_cons_self t inner)
    have ih' := ih fun t' ht' => h t' (List.mem_cons_of_mem t ht')
    cases t <;> simp_all [isListElemTok, parseListItems, listElems]

/-- The list loop of `Expression::term` rejects the first token that is
neither an element token, a comma, nor the closing bracket, with a syntax
error naming that token. -/
theorem parseListItems_syntax (pre : List Token) (bad : Token) (rest : List Token)
    (h : ∀ t ∈ pre, isListElemTok t = true) (hbad : isListElemTok bad = false)
    (hne : bad ≠ Token.SquareBracketEnd) :
    parseListItems (pre ++ bad :: rest) = .error (.SyntaxError bad) := by
  induction pre with
  | nil => cases bad <;> simp_all [isListElemTok, parseListItems]
  | cons t pre ih =>
    have ht : isListElemTok t = true := h t (List.mem_cons_self t pre)
    have ih' := ih fun t' ht' => h t' (List.mem_cons_of_mem t ht')
    cases t <;> simp_all [isListElemTok, parseListItems]

/-- C7: the three malformed shapes all fail with `Eof` or a syntax error
(the model is total, so no panic and no partial tree is possible): an
opening parenthesis whose matching `)` does not occur before the block-end
marker or the end of the stream; a trailing operator with no right
operand; and an unterminated list. -/
theorem malformed_input_errors (fuel : Nat) :
    (∀ ts : TokenStream, hasMatchingClose 1 ts = false →
      Expression.termF (fuel + 1) (Token.RoundBracketStart :: ts) = .error .Eof ∨
        Expression.termF (fuel + 1) (Token.RoundBracketStart :: ts) =
          .error (.SyntaxError .BlockEnd)) ∧
    (∀ (ts : TokenStream) (e : Expression) (t : Token) (op : Op),
      Expression.termF fuel ts = .ok (e, [t]) → Op.from_token t = some op →
      Expression.parseF (fuel + 1) ts = .error .Eof) ∧
    (∀ ts : TokenStream, (∀ t ∈ ts, isListElemTok t = true) →
      Expression.termF (fuel + 1) (Token.SquareBracketStart :: ts) = .error .Eof) := by
  refine ⟨fun ts h => ?_, fun ts e t op h1 h2 => ?_, fun ts h => ?_⟩
  · rcases collectParen_no_close ts 1 h with h' | h'
    · left; simp [Expression.termF, h']
    · right; simp [Expression.termF, h']
  · have hnil : Expression.termF fuel ([] : TokenStream) = .error .Eof := by
      cases fuel <;> rfl
    simp [Expression.parseF, h1, h2, hnil]
  · simp [Expression.termF, parseListItems_eof ts h]

/-- C7 witness: the three malformed shapes at concrete inputs — an
unbalanced `( 1 %>`, the trailing operator `1 ==` at end of stream, and
the unterminated list `[ 1,`. -/
theorem malformed_input_errors_witness :
    (Expression.termF 2 [Token.RoundBracketStart, Token.Value (Value.integer 1),
        Token.BlockEnd] = .error .Eof ∨
      Expression.termF 2 [Token.RoundBracketStart, Token.Value (Value.integer 1),
        Token.BlockEnd] = .error (.SyntaxError .BlockEnd)) ∧
    Expression.parseF 2 [Token.Value (Value.integer 1), Token.Equals] = .error .Eof ∧
    Expression.termF 2 [Token.SquareBracketStart, Token.Value (Value.integer 1),
      Token.Comma] = .error .Eof :=
  ⟨(malformed_input_errors 1).1 [Token.Value (Value.integer 1), Token.BlockEnd] rfl,
    (malformed_input_errors 1).2.1 [Token.Value (Value.integer 1), Token.Equals]
      (Expression.constant (Value.integer 1)) Token.Equals .Equals rfl rfl,
    (malformed_input_errors 1).2.2 [Token.Value (Value.integer 1), Token.Comma]
      (by
        intro t ht
        simp only [List.mem_cons, List.not_mem_nil, or_false] at ht
        rcases ht with rfl | rfl <;> rfl)⟩

/-- Prepending one consumed non-block-end token to a consumed prefix. -/
theorem cons_prefix_step {t : Token} {rest r pre : List Token} (ht : t ≠ Token.BlockEnd)
    (heq : rest = pre ++ r) (hmem : Token.BlockEnd ∉ pre) :
    ∃ pre', t :: rest = pre' ++ r ∧ Token.BlockEnd ∉ pre' :=
  ⟨t :: pre, by simp [heq], by simp [hmem, Ne.symm ht]⟩

/-- A successful run of the list loop consumed an initial segment of the
stream that contains no block-end marker. -/
theorem parseListItems_prefix (ts : List Token) :
    ∀ (es : List Expression) (r : List Token), parseListItems ts = .ok (es, r) →
      ∃ pre, ts = pre ++ r ∧ Token.BlockEnd ∉ pre := by
  induction ts with
  | nil => intro es r h; exact Except.noConfusion h
  | cons t rest ih =>
    intro es r h
    cases t <;> simp only [parseListItems] at h <;> try (exact Except.noConfusion h)
    case SquareBracketEnd =>
      simp only [Except.ok.injEq, Prod.mk.injEq] at h
      obtain ⟨-, hr⟩ := h
      subst hr
      exact ⟨[Token.SquareBracketEnd], rfl, by simp⟩
    case Comma =>
      obtain ⟨pre, heq, hmem⟩ := ih es r h
      exact ⟨Token.Comma :: pre, by simp [heq], by simp [hmem]⟩
    all_goals
      cases hrec : parseListItems rest with
      | error err => rw [hrec] at h; exact Except.noConfusion h
      | ok p =>
        obtain ⟨terms, r'⟩ := p
        rw [hrec] at h
        simp only [bindOk, Except.ok.injEq, Prod.mk.injEq] at h
        obtain ⟨-, hr⟩ := h
        rw [hr] at hrec
        obtain ⟨pre, heq, hmem⟩ := ih terms r hrec
        exact cons_prefix_step (by simp) heq hmem

/-- A successful run of the bracket collector consumed an initial segment
of the stream that contains no block-end marker. -/
theorem collectParen_prefix (ts : List Token) :
    ∀ (n : Nat) (c r : List Token), collectParen n ts = .ok (c, r) →
      ∃ pre, ts = pre ++ r ∧ Token.BlockEnd ∉ pre := by
  induction ts with
  | nil => intro n c r h; exact Except.noConfusion h
  | cons t rest ih =>
    intro n c r h
    cases t <;> simp only [collectParen] at h <;> try (exact Except.noConfusion h)
    case RoundBracketEnd =>
      by_cases hn : n = 1
      · rw [if_pos hn] at h
        simp only [Except.ok.injEq, Prod.mk.injEq] at h
        obtain ⟨-, hr⟩ := h
        subst hr
        exact ⟨[Token.RoundBracketEnd], rfl, by simp⟩
      · rw [if_neg hn] at h
        cases hrec : collectParen (n - 1) rest with
        | error err => rw [hrec] at h; exact Except.noConfusion h
        | ok p =>
          obtain ⟨inner, r'⟩ := p
          rw [hrec] at h
          simp only [bindOk, Except.ok.injEq, Prod.mk.injEq] at h
          obtain ⟨-, hr⟩ := h
          rw [hr] at hrec
          obtain ⟨pre, heq, hmem⟩ := ih (n - 1) inner r hrec
          exact ⟨Token.RoundBracketEnd :: pre, by simp [heq], by simp [hmem]⟩
    case RoundBracketStart =>
      cases hrec : collectParen (n + 1) rest with
      | error err => rw [hrec] at h; exact Except.noConfusion h
      | ok p =>
        obtain ⟨inner, r'⟩ := p
        rw [hrec] at h
        simp only [bindOk, Except.ok.injEq, Prod.mk.injEq] at h
        obtain ⟨-, hr⟩ := h
        rw [hr] at hrec
        obtain ⟨pre, heq, hmem⟩ := ih (n + 1) inner r hrec
        exact ⟨Token.RoundBracketStart :: pre, by simp [heq], by simp [hmem]⟩
    all_goals
      cases hrec : collectParen n rest with
      | error err => rw [hrec] at h; exact Except.noConfusion h
      | ok p =>
        obtain ⟨inner, r'⟩ := p
        rw [hrec] at h
        simp only [bindOk, Except.ok.injEq, Prod.mk.injEq] at h
        obtain ⟨-, hr⟩ := h
        rw [hr] at hrec
        obtain ⟨pre, heq, hmem⟩ := ih n inner r hrec
        exact cons_prefix_step (by simp) heq hmem

/-- Assembling the consumed prefix of a term, one operator token and a
second consumed tail, none containing a block-end marker. -/
theorem prefix_assemble_two {ts ts2 r pre1 pre2 : List Token} {t : Token}
    (h1 : ts = pre1 ++ (t :: ts2)) (m1 : Token.BlockEnd ∉ pre1)
    (nt : t ≠ Token.BlockEnd)
    (h2 : ts2 = pre2 ++ r) (m2 : Token.BlockEnd ∉ pre2) :
    ∃ pre, ts = pre ++ r ∧ Token.BlockEnd ∉ pre := by
  refine ⟨pre1 ++ t :: pre2, ?_, ?_⟩
  · simp [h1, h2]
  · simp only [List.mem_append, List.mem_cons, not_or]
    exact ⟨m1, Ne.symm nt, m2⟩

/-- Assembling the consumed prefixes of two terms, two operator tokens and
a recursively consumed tail, none containing a block-end marker. -/
theorem prefix_assemble_four {ts ts2 ts3 ts4 r pre1 pre2 pre3 : List Token}
    {t t2 : Token}
    (h1 : ts = pre1 ++ (t :: ts2)) (m1 : Token.BlockEnd ∉ pre1)
    (nt : t ≠ Token.BlockEnd)
    (h2 : ts2 = pre2 ++ ts3) (m2 : Token.BlockEnd ∉ pre2)
    (h3 : ts3 = t2 :: ts4) (nt2 : t2 ≠ Token.BlockEnd)
    (h4 : ts4 = pre3 ++ r) (m3 : Token.BlockEnd ∉ pre3) :
    ∃ pre, ts = pre ++ r ∧ Token.BlockEnd ∉ pre := by
  refine ⟨pre1 ++ t :: (pre2 ++ t2 :: pre3), ?_, ?_⟩
  · simp [h1, h2, h3, h4]
  · simp only [List.mem_append, List.mem_cons, not_or]
    exact ⟨m1, Ne.symm nt, m2, Ne.symm nt2, m3⟩

/-- C5 (amended): `Expression::parse` treats the block-end marker as the
parse terminator but never consumes it: a successful `term` or `parse`
consumes an initial segment of the stream containing no `BlockEnd` token,
so after parsing an expression block the block-end marker is still the
next token of the remaining stream (exactly what the repository's own
`test_list` asserts). -/
theorem parse_never_consumes_blockEnd :
    ∀ fuel : Nat,
      (∀ (ts : TokenStream) (e : Expression) (r : TokenStream),
        Expression.termF fuel ts = .ok (e, r) →
          ∃ pre, ts = pre ++ r ∧ Token.BlockEnd ∉ pre) ∧
      (∀ (ts : TokenStream) (e : Expression) (r : TokenStream),
        Expression.parseF fuel ts = .ok (e, r) →
          ∃ pre, ts = pre ++ r ∧ Token.BlockEnd ∉ pre) := by
  intro fuel
  induction fuel with
  | zero => constructor <;> intro ts e r h <;> exact Except.noConfusion h
  | succ n ih =>
    obtain ⟨ihT, ihP⟩ := ih
    constructor
    · intro ts e r h
      cases ts with
      | nil => exact Except.noConfusion h
      | cons t rest =>
        cases t <;> simp only [Expression.termF] at h <;> try (exact Except.noConfusion h)
        case Not | Minus | Plus =>
          cases hrec : Expression.termF n rest with
          | error err => rw [hrec] at h; exact Except.noConfusion h
          | ok p =>
            obtain ⟨operand, r'⟩ := p
            rw [hrec] at h
            simp only [bindOk, Except.ok.injEq, Prod.mk.injEq] at h
            obtain ⟨-, hr⟩ := h
            rw [hr] at hrec
            obtain ⟨pre, heq, hmem⟩ := ihT rest operand r hrec
            exact cons_prefix_step (by simp) heq hmem
        case Variable name =>
          simp only [Except.ok.injEq, Prod.mk.injEq] at h
          obtain ⟨-, hr⟩ := h
          exact ⟨[Token.Variable name], by simp [hr], by simp⟩
        case Value v =>
          simp only [Except.ok.injEq, Prod.mk.injEq] at h
          obtain ⟨-, hr⟩ := h
          exact ⟨[Token.Value v], by simp [hr], by simp⟩
        case SquareBracketStart =>
          cases hrec : parseListItems rest with
          | error err => rw [hrec] at h; exact Except.noConfusion h
          | ok p =>
            obtain ⟨terms, r'⟩ := p
            rw [hrec] at h
            simp only [bindOk, Except.ok.injEq, Prod.mk.injEq] at h
            obtain ⟨-, hr⟩ := h
            rw [hr] at hrec
            obtain ⟨pre, heq, hmem⟩ := parseListItems_prefix rest terms r hrec
            exact cons_prefix_step (by simp) heq hmem
        case RoundBracketStart =>
          cases hrec : collectParen 1 rest with
          | error err => rw [hrec] at h; exact Except.noConfusion h
          | ok p =>
            obtain ⟨inner, r'⟩ := p
            rw [hrec] at h
            simp only [bindOk] at h
            cases hq : Expression.parseF n inner with
            | error err => rw [hq] at h; exact Except.noConfusion h
            | ok q =>
              obtain ⟨e2, leftover⟩ := q
              rw [hq] at h
              simp only [bindOk, Except.ok.injEq, Prod.mk.injEq] at h
              obtain ⟨-, hr⟩ := h
              rw [hr] at hrec
              obtain ⟨pre, heq, hmem⟩ := collectParen_prefix rest 1 inner r hrec
              exact cons_prefix_step (by simp) heq hmem
    · intro ts e r h
      simp only [Expression.parseF] at h
      cases hL : Expression.termF n ts with
      | error err => rw [hL] at h; exact Except.noConfusion h
      | ok p =>
        obtain ⟨left, ts1⟩ := p
        rw [hL] at h
        simp only [bindOk] at h
        obtain ⟨pre1, heq1, hmem1⟩ := ihT ts left ts1 hL
        cases ts1 with
        | nil => exact Except.noConfusion h
        | cons t ts2 =>
          cases hop : Op.from_token t with
          | none =>
            simp only [hop] at h
            simp only [Except.ok.injEq, Prod.mk.injEq] at h
            obtain ⟨-, hr⟩ := h
            rw [← hr]
            exact ⟨pre1, heq1, hmem1⟩
          | some op =>
            have ht : t ≠ Token.BlockEnd := by
              intro hh
              rw [hh] at hop
              exact Option.noConfusion hop
            simp only [hop] at h
            cases hR : Expression.termF n ts2 with
            | error err => rw [hR] at h; exact Except.noConfusion h
            | ok q =>
              obtain ⟨right, ts3⟩ := q
              rw [hR] at h
              simp only [bindOk] at h
              obtain ⟨pre2, heq2, hmem2⟩ := ihT ts2 right ts3 hR
              cases ts3 with
              | nil =>
                simp only [Except.ok.injEq, Prod.mk.injEq] at h
                obtain ⟨-, hr⟩ := h
                rw [← hr]
                exact prefix_assemble_two heq1 hmem1 ht heq2 hmem2
              | cons t2 ts4 =>
                cases t2 <;> simp only [Op.from_token] at h <;>
                  try (exact Except.noConfusion h)
                case BlockEnd =>
                  simp only [Except.ok.injEq, Prod.mk.injEq] at h
                  obtain ⟨-, hr⟩ := h
                  rw [← hr]
                  exact prefix_assemble_two heq1 hmem1 ht heq2 hmem2
                all_goals
                  cases hP : Expression.parseF n ts4 with
                  | error err => rw [hP] at h; exact Except.noConfusion h
                  | ok q2 =>
                    obtain ⟨right2, ts5⟩ := q2
                    rw [hP] at h
                    simp only [bindOk] at h
                    split at h <;>
                    · simp only [Except.ok.injEq, Prod.mk.injEq] at h
                      obtain ⟨-, hr⟩ := h
                      rw [hr] at hP
                      obtain ⟨pre3, heq3, hmem3⟩ := ihP ts4 right2 r hP
                      exact prefix_assemble_four heq1 hmem1 ht heq2 hmem2 rfl
                        (by simp) heq3 hmem3

/-- C5 amended-theorem witness: parsing the block `1 == 2 %> garbage`
consumes no block-end marker — the consumed prefix of the stream is free
of `BlockEnd`. -/
theorem parse_never_consumes_blockEnd_witness :
    ∃ pre,
      [Token.Value (Value.integer 1), Token.Equals, Token.Value (Value.integer 2),
          Token.BlockEnd] =
        pre ++ [Token.BlockEnd] ∧ Token.BlockEnd ∉ pre :=
  (parse_never_consumes_blockEnd 3).2
    [Token.Value (Value.integer 1), Token.Equals, Token.Value (Value.integer 2),
      Token.BlockEnd]
    (.Binary (Expression.constant (Value.integer 1)) .Equals
      (Expression.constant (Value.integer 2)))
    [Token.BlockEnd] rfl

/-- C9: for all values, `evaluate_binary` with `Equals` and with
`NotEquals` both succeed with Booleans, and the two Booleans are
complementary: `NotEquals` yields true exactly when `Equals` yields
false. -/
theorem equals_notEquals_complementary :
    ∀ a b : Value, ∃ e : Bool,
      Op.evaluate_binary .Equals a b = .ok (.boolean e) ∧
      Op.evaluate_binary .NotEquals a b = .ok (.boolean (!e)) ∧
      (Op.evaluate_binary .NotEquals a b = .ok (.boolean true) ↔
        Op.evaluate_binary .Equals a b = .ok (.boolean false)) := by
  intro a b
  refine ⟨Value.eqv a b, rfl, rfl, ?_⟩
  simp only [Op.evaluate_binary, Except.ok.injEq, Value.boolean.injEq,
    Bool.not_eq_true', Bool.not_eq_true]

/-- C8: evaluating a `Binary` node evaluates the left child and then the
right child unconditionally — there is no short-circuiting, including for
`And` and `Or`, whose results are the Booleans of the logical AND/OR of
the two operands' truthiness; an error in either child propagates
immediately and the operator is not applied (in particular a failing right
operand fails the node even when the left operand already decides the
logical result). -/
theorem binary_eager_no_short_circuit :
    (∀ (context : Context) (l r : Expression) (lv rv : Value),
      l.evaluate context = .ok lv → r.evaluate context = .ok rv →
      (Expression.Binary l .And r).evaluate context =
          .ok (.boolean (lv.truthy && rv.truthy)) ∧
        (Expression.Binary l .Or r).evaluate context =
          .ok (.boolean (lv.truthy || rv.truthy))) ∧
    (∀ (context : Context) (op : Op) (l r : Expression) (lv : Value) (e : Error),
      l.evaluate context = .ok lv → r.evaluate context = .error e →
      (Expression.Binary l op r).evaluate context = .error e) ∧
    (∀ (context : Context) (op : Op) (l r : Expression) (e : Error),
      l.evaluate context = .error e →
      (Expression.Binary l op r).evaluate context = .error e) := by
  refine ⟨fun context l r lv rv h1 h2 => ?_, fun context op l r lv e h1 h2 => ?_,
    fun context op l r e h1 => ?_⟩ <;>
    simp [Expression.evaluate, h1, Op.evaluate_binary] <;>
    simp [h2]

/-- C8 witness: with the left operand the constant `false` (so that Rust's
`&&` would short-circuit) and the right operand an unbound variable, the
`And` node still fails with the right operand's `UndefinedVariable` error
instead of returning `Boolean(false)`. -/
theorem binary_eager_no_short_circuit_witness :
    (Expression.Binary (Expression.constant (.boolean false)) .And
        (Expression.variableE "x")).evaluate Context.default =
      .error (.UndefinedVariable "x") :=
  binary_eager_no_short_circuit.2.1 Context.default .And
    (Expression.constant (.boolean false)) (Expression.variableE "x")
    (.boolean false) (.UndefinedVariable "x") rfl rfl

/-- C1: on a stream shaped `term1 op1 term2 op2 rest` (both operators
recognized by `Op::from_token`, the peeked token after `term2` not the
block-end marker), `Expression::parse` consumes `op2`, recursively parses
`rest` into `right2`, and groups `right` with `right2` under `op2` when
`op2` binds tighter than `op1`, and `left` with `right` under `op1`
otherwise. -/
theorem parse_two_operator_lookahead (fuel : Nat) (ts ts2 ts4 ts5 : TokenStream)
    (left right right2 : Expression) (t t2 : Token) (op second_op : Op)
    (h1 : Expression.termF fuel ts = .ok (left, t :: ts2))
    (h2 : Op.from_token t = some op)
    (h3 : Expression.termF fuel ts2 = .ok (right, t2 :: ts4))
    (h4 : Op.from_token t2 = some second_op)
    (h5 : Expression.parseF fuel ts4 = .ok (right2, ts5)) :
    Expression.parseF (fuel + 1) ts =
      .ok (if second_op.tighterThan op
        then .Binary left op (.Binary right second_op right2)
        else .Binary (.Binary left op right) second_op right2, ts5) := by
  cases t2 <;> simp_all [Expression.parseF, Op.from_token] <;> split <;> rfl

/-- C1 witness: the two-operator stream `1 == 2 && 3 %>` at concrete fuel;
`&&` does not bind tighter than `==`, so the left pair groups first. -/
theorem parse_two_operator_lookahead_witness :
    Expression.parseF 3
        [.Value (.integer 1), .Equals, .Value (.integer 2), .And,
         .Value (.integer 3), .BlockEnd] =
      .ok (if Op.tighterThan .And .Equals
        then .Binary (Expression.constant (.integer 1)) .Equals
          (.Binary (Expression.constant (.integer 2)) .And (Expression.constant (.integer 3)))
        else .Binary (.Binary (Expression.constant (.integer 1)) .Equals
          (Expression.constant (.integer 2))) .And (Expression.constant (.integer 3)),
        [Token.BlockEnd]) :=
  parse_two_operator_lookahead 2
    [.Value (.integer 1), .Equals, .Value (.integer 2), .And, .Value (.integer 3), .BlockEnd]
    [.Value (.integer 2), .And, .Value (.integer 3), .BlockEnd]
    [.Value (.integer 3), .BlockEnd] [Token.BlockEnd]
    (Expression.constant (.integer 1)) (Expression.constant (.integer 2))
    (Expression.constant (.integer 3)) .Equals .And .Equals .And
    rfl rfl rfl rfl rfl

/-- C9 witness: complementarity instantiated at the concrete cross-variant
pair of the integer 1 and the string x. -/
theorem equals_notEquals_complementary_witness :
    ∃ e : Bool,
      Op.evaluate_binary .Equals (.integer 1) (.str "x") = .ok (.boolean e) ∧
      Op.evaluate_binary .NotEquals (.integer 1) (.str "x") = .ok (.boolean (!e)) ∧
      (Op.evaluate_binary .NotEquals (.integer 1) (.str "x") = .ok (.boolean true) ↔
        Op.evaluate_binary .Equals (.integer 1) (.str "x") = .ok (.boolean false)) :=
  equals_notEquals_complementary (.integer 1) (.str "x")

/-- C10 counterexample: the empty list as a whole token stream — `[` then
`]` then end of stream — makes `Expression::parse` fail with `Eof` (the
parser peeks for a further token after the bracketed group) where the
claim says parse succeeds with the empty `List`. -/
theorem parse_list_at_end_of_stream_errors :
    Expression.parse [Token.SquareBracketStart, Token.SquareBracketEnd] = .error .Eof := rfl

/-- C10 (amended): comma tokens between `[` and `]` are skipped without
separator validation — for every arrangement of literal, variable and
comma tokens, `Expression::parse` builds the `List` of exactly the literal
and variable elements in source order, and succeeds with that `List` alone
provided some non-operator token (such as the block-end marker) follows
the `]` (with end of stream right after `]` the parser's unconditional
peek fails with `Eof` instead); any other token inside the brackets is a
syntax error naming it, and end of stream before `]` is `Eof`. -/
theorem parse_list_arrangements (fuel : Nat) :
    (∀ (inner : List Token) (t : Token) (rest : TokenStream),
      (∀ x ∈ inner, isListElemTok x = true) → Op.from_token t = none →
      Expression.parseF (fuel + 2)
          (Token.SquareBracketStart :: (inner ++ Token.SquareBracketEnd :: t :: rest)) =
        .ok (.List (listElems inner), t :: rest)) ∧
    (∀ (pre : List Token) (bad : Token) (rest : List Token),
      (∀ x ∈ pre, isListElemTok x = true) → isListElemTok bad = false →
      bad ≠ Token.SquareBracketEnd →
      Expression.parseF (fuel + 2)
          (Token.SquareBracketStart :: (pre ++ bad :: rest)) =
        .error (.SyntaxError bad)) ∧
    (∀ inner : List Token, (∀ x ∈ inner, isListElemTok x = true) →
      Expression.parseF (fuel + 2) (Token.SquareBracketStart :: inner) = .error .Eof) := by
  refine ⟨fun inner t rest h ht => ?_, fun pre bad rest h hbad hne => ?_, fun inner h => ?_⟩
  · simp [Expression.parseF, Expression.termF,
      parseListItems_ok inner (t :: rest) h, ht]
  · simp [Expression.parseF, Expression.termF,
      parseListItems_syntax pre bad rest h hbad hne]
  · simp [Expression.parseF, Expression.termF, parseListItems_eof inner h]

/-- C10 witness: the arrangement `[, 1 2 ,, x ] %>` (leading, missing and
repeated separators) parses to the list of `1`, `2`, `x`; a `(` inside a
list is rejected; `[ 1` at end of stream is `Eof`. -/
theorem parse_list_arrangements_witness :
    Expression.parseF 2
        [Token.SquareBracketStart, Token.Comma, Token.Value (Value.integer 1),
         Token.Value (Value.integer 2), Token.Comma, Token.Comma, Token.Variable "x",
         Token.SquareBracketEnd, Token.BlockEnd] =
      .ok (.List [Expression.constant (Value.integer 1),
        Expression.constant (Value.integer 2), Expression.variableE "x"],
        [Token.BlockEnd]) ∧
    Expression.parseF 2
        [Token.SquareBracketStart, Token.RoundBracketStart] =
      .error (.SyntaxError .RoundBracketStart) ∧
    Expression.parseF 2 [Token.SquareBracketStart, Token.Value (Value.integer 1)] =
      .error .Eof :=
  ⟨(parse_list_arrangements 0).1
      [Token.Comma, Token.Value (Value.integer 1), Token.Value (Value.integer 2),
       Token.Comma, Token.Comma, Token.Variable "x"] Token.BlockEnd []
      (by
        intro x hx
        simp only [List.mem_cons, List.not_mem_nil, or_false] at hx
        rcases hx with rfl | rfl | rfl | rfl | rfl | rfl <;> rfl)
      rfl,
    (parse_list_arrangements 0).2.1 [] Token.RoundBracketStart []
      (by intro x hx; simp at hx) rfl (by intro hx; cases hx),
    (parse_list_arrangements 0).2.2 [Token.Value (Value.integer 1)]
      (by
        intro x hx
        simp only [List.mem_cons, List.not_mem_nil, or_false] at hx
        subst hx
        rfl)⟩

end Rwf
